import Mathlib

/-!
Shallow embedding of the MyNEA password-manager core
(`ndv_cypher.py`, `recordmanager.py`, `dbmanager.py`).

Strings are modelled as lists: a piece of text is a `List Nat` of
codepoints (`ord`), a stored key string is a `List Char`.  The
randomized shift of `VernamEncrypt._gen_char` is modelled relationally:
`GenChar val newv shift` holds exactly when `(newv, shift)` is a
possible outcome of the rejection-sampling loop on input `val`.
-/

namespace MyNEA

/-- Python `str.split()`: split on runs of whitespace, dropping empty
tokens.  `acc` holds the (reversed) current token. -/
def pyWordsAux : List Char → List Char → List (List Char)
  | [], acc => if acc = [] then [] else [acc.reverse]
  | c :: cs, acc =>
      if c.isWhitespace then
        if acc = [] then pyWordsAux cs [] else acc.reverse :: pyWordsAux cs []
      else
        pyWordsAux cs (c :: acc)

/-- Python `keytext.split()` as used in `VernamDecrypt.decrypt`. -/
def pyWords (l : List Char) : List (List Char) := pyWordsAux l []

/-- Python `" ".join(tokens)` as used in `VernamEncrypt.encrypt`. -/
def sepJoin : List (List Char) → List Char
  | [] => []
  | [t] => t
  | t :: ts => t ++ ' ' :: sepJoin ts

/-- Decimal digits of a natural number, most significant first
(fuelled so that the kernel can evaluate it). -/
def natDigitsAux : Nat → Nat → List Char
  | 0, _ => []
  | fuel + 1, n =>
      if n < 10 then [Nat.digitChar n]
      else natDigitsAux fuel (n / 10) ++ [Nat.digitChar (n % 10)]

/-- Python `str(n)` for a natural number. -/
def natChars (n : Nat) : List Char := natDigitsAux (n + 1) n

/-- Python `str(k)` for an integer (the textual form of one shift in
the key string). -/
def intChars (k : Int) : List Char :=
  if k < 0 then '-' :: natChars k.natAbs else natChars k.toNat

/-- The value of a decimal digit character, `none` if not a digit. -/
def digitVal (c : Char) : Option Nat :=
  if '0' ≤ c ∧ c ≤ '9' then some (c.toNat - 48) else none

/-- Accumulating digit parser (the digit-folding core of Python
`int(token)`). -/
def parseNatAux : List Char → Nat → Option Nat
  | [], acc => some acc
  | c :: cs, acc =>
      match digitVal c with
      | some d => parseNatAux cs (acc * 10 + d)
      | none => none

/-- Python `int(token)` on an unsigned decimal token. -/
def parseNatChars (l : List Char) : Option Nat :=
  if l = [] then none else parseNatAux l 0

/-- Python `int(token)` on a (possibly `-`-signed) decimal token. -/
def parseIntChars (l : List Char) : Option Int :=
  match l with
  | [] => none
  | c :: cs =>
      if c = '-' then (parseNatChars cs).map (fun n => -(n : Int))
      else (parseNatChars (c :: cs)).map (fun n => (n : Int))

/-- `VernamEncrypt._gen_char`: `(newv, shift)` is a possible result of
the rejection-sampling loop on codepoint `val`.  The loop draws
`shift = random.randint(0 - val, 127 - val)` and accepts when
`32 <= ord(chr(val + shift)) < 127` and `ord != 92`. -/
def GenChar (val newv : Nat) (shift : Int) : Prop :=
  -(val : Int) ≤ shift ∧ shift ≤ 127 - (val : Int) ∧
    (newv : Int) = (val : Int) + shift ∧ 32 ≤ newv ∧ newv < 127 ∧ newv ≠ 92

instance (val newv : Nat) (shift : Int) : Decidable (GenChar val newv shift) := by
  unfold GenChar; infer_instance

/-- `VernamEncrypt.encrypt` relationally, as a Boolean check: `cipher`
and `shifts` are a possible outcome of encrypting `text` (one
`_gen_char` draw per character, in order). -/
def encryptOk : List Nat → List Nat → List Int → Bool
  | [], [], [] => true
  | tv :: ts, cv :: cs, sv :: ss => decide (GenChar tv cv sv) && encryptOk ts cs ss
  | _, _, _ => false

/-- `Encrypt text cipher shifts`: encrypting `text` can produce the
ciphertext codepoints `cipher` with per-character shifts `shifts`. -/
def Encrypt (text cipher : List Nat) (shifts : List Int) : Prop :=
  encryptOk text cipher shifts = true

instance (t c : List Nat) (s : List Int) : Decidable (Encrypt t c s) := by
  unfold Encrypt; infer_instance

/-- The key string returned by `encrypt`: `" ".join(str(shift) ...)`. -/
def keyOf (shifts : List Int) : List Char := sepJoin (shifts.map intChars)

/-- The loop of `VernamDecrypt.decrypt`: for `x in range(0, len(key))`
compute `chr(int(cipher_list[x]) - int(key[x]))`.  `none` models an
uncaught exception (index out of range, non-integer token, or a
codepoint `chr` rejects). -/
def decryptLoop (cipher : List Nat) : List (List Char) → Nat → Option (List Nat)
  | [], _ => some []
  | t :: ts, x =>
      match cipher[x]?, parseIntChars t with
      | some c, some k =>
          let v : Int := (c : Int) - k
          if 0 ≤ v ∧ v < 1114112 then
            (decryptLoop cipher ts (x + 1)).map (fun r => v.toNat :: r)
          else none
      | _, _ => none

/-- `VernamDecrypt.decrypt cipher keytext`: split the key string on
whitespace and reverse each shift positionally. -/
def decrypt (cipher : List Nat) (keytext : List Char) : Option (List Nat) :=
  decryptLoop cipher (pyWords keytext) 0

/-- Codepoints (`ord`) of a string, the `plain_ascii` list of
`encrypt`. -/
def strCodes (s : String) : List Nat := s.data.map (fun c => c.toNat)

/-- The three plaintext (or ciphertext) fields of one record,
`(site, username, password)`, each a list of codepoints. -/
abbrev Rec3 : Type := List Nat × List Nat × List Nat

/-- The three key sequences of one key record, one shift list per
field. -/
abbrev Key3 : Type := List Int × List Int × List Int

/-- A row of `passw_table` as read back by `read_all_from_db`:
`(personID, site_ct, username_ct, password_ct)`. -/
abbrev CRow : Type := Nat × Rec3

/-- A row of `key_table`: `(personID, site_key, username_key,
password_key)`; the key sequences are stored as strings. -/
abbrev KRow : Type := Nat × (List Char × List Char × List Char)

/-- `RecordManager.record_encryption` relationally: `es`/`ks` are a
possible outcome of encrypting the records of `record_dict` (values in
iteration order), one `VernamEncrypt.encrypt` call per field. -/
def recordEncOk : List Rec3 → List Rec3 → List Key3 → Bool
  | [], [], [] => true
  | r :: rs, e :: es, k :: ks =>
      encryptOk r.1 e.1 k.1 && encryptOk r.2.1 e.2.1 k.2.1
        && encryptOk r.2.2 e.2.2 k.2.2 && recordEncOk rs es ks
  | _, _, _ => false

/-- `RecordEncryption rs es ks`: encrypting the record list `rs` can
produce the cipher records `es` with key records `ks`. -/
def RecordEncryption (rs es : List Rec3) (ks : List Key3) : Prop :=
  recordEncOk rs es ks = true

instance (rs es : List Rec3) (ks : List Key3) : Decidable (RecordEncryption rs es ks) := by
  unfold RecordEncryption; infer_instance

/-- `DBManager.check_db`: the go-ahead code computed from the two row
lists (`0` = data empty but keys present, `1` = both present,
`2` = otherwise). -/
def check_db (databox : List CRow) (keybox : List KRow) : Nat :=
  if databox.isEmpty && !keybox.isEmpty then 0
  else if !databox.isEmpty && !keybox.isEmpty then 1
  else 2

/-- The alignment state observed by the decode path: the go-ahead code
from `check_db` paired with the row-count comparison
`len(databox) == len(keybox)` made in `RecordManager.db_decryption`. -/
def dbState (databox : List CRow) (keybox : List KRow) : Nat × Bool :=
  (check_db databox keybox, databox.length == keybox.length)

/-- The user-visible dialog and table effects of `db_decryption`. -/
inductive Evt where
  | errMoreDataThanKeys
  | errMoreKeysThanData
  | clearKeyTable
  | infoKeyTableCleared
  | infoKeyTableNotCleared
  deriving DecidableEq

/-- One element of the list returned by `db_decryption`: either a
decrypted 3-field tuple or (when there are no keys) a raw table row. -/
inductive RecOut where
  | decoded (r : Rec3)
  | raw (r : CRow)
  deriving DecidableEq

/-- Decryption of the three fields of one row pair, the inner
`for x in range(1, 4)` loop of `db_decryption`. -/
def decRowFields (c : CRow) (k : KRow) : Option Rec3 :=
  match decrypt c.2.1 k.2.1, decrypt c.2.2.1 k.2.2.1, decrypt c.2.2.2 k.2.2.2 with
  | some a, some b, some d => some (a, b, d)
  | _, _, _ => none

/-- The aligned decode loop of `db_decryption`
(`for i in range(len(databox))`, reached only with equal lengths). -/
def decodeRows : List CRow → List KRow → Option (List Rec3)
  | [], _ => some []
  | _ :: _, [] => none
  | c :: cs, k :: ks =>
      match decRowFields c k, decodeRows cs ks with
      | some r, some rs => some (r :: rs)
      | _, _ => none

/-- `RecordManager.db_decryption` as a function of the two row lists
and the user's answer `ans` to the orphan-keys dialog; returns the
records list and the emitted dialog/table events, `none` for an
uncaught exception. -/
def db_decryption (ans : Bool) (databox : List CRow) (keybox : List KRow) :
    Option (List RecOut × List Evt) :=
  let g := check_db databox keybox
  if g = 1 then
    if databox.length = keybox.length then
      (decodeRows databox keybox).map (fun rs => (rs.map RecOut.decoded, []))
    else if databox.length > keybox.length then some ([], [Evt.errMoreDataThanKeys])
    else some ([], [Evt.errMoreKeysThanData])
  else if g = 0 then
    if ans then some ([], [Evt.clearKeyTable, Evt.infoKeyTableCleared])
    else some ([], [Evt.infoKeyTableNotCleared])
  else some (databox.map RecOut.raw, [])

/-- Python dict assignment `d[k] = v` for an int-keyed dict kept as an
association list in insertion order: overwrite in place if the key
exists, else append. -/
def dictSet (d : List (Nat × α)) (k : Nat) (v : α) : List (Nat × α) :=
  if (d.lookup k).isSome then d.map (fun p => if p.1 = k then (k, v) else p)
  else d ++ [(k, v)]

/-- `RecordManager.add_new_record` (confirmed path): inserts the new
record at key `len(record_dict) + 1`. -/
def add_new_record (d : List (Nat × α)) (r : α) : List (Nat × α) :=
  dictSet d (d.length + 1) r

/-- `RecordManager.delete_record` (confirmed path):
`del record_dict[index]`. -/
def delete_record (d : List (Nat × α)) (index : Nat) : List (Nat × α) :=
  d.filter (fun p => p.1 != index)

/-- The record of the spec's concrete scenario
`{1: ("Google", "user@x.com", "Secret1!")}`. -/
def googleRec : Rec3 := (strCodes "Google", strCodes "user@x.com", strCodes "Secret1!")

/-- A concrete deterministic outcome of the shift draws: shift every
codepoint to `'A'` (65). -/
def toA (text : List Nat) : List Nat := text.map (fun _ => 65)

/-- The shifts realizing `toA`. -/
def toAShifts (text : List Nat) : List Int := text.map (fun v => 65 - (v : Int))

/-- A concrete encryption outcome for `googleRec` (all characters
shifted to `'A'`). -/
def gEnc : Rec3 :=
  (toA (strCodes "Google"), toA (strCodes "user@x.com"), toA (strCodes "Secret1!"))

/-- The key records realizing `gEnc`. -/
def gKey : Key3 :=
  (toAShifts (strCodes "Google"), toAShifts (strCodes "user@x.com"),
    toAShifts (strCodes "Secret1!"))

/-- A concrete `passw_table` row used to instantiate the alignment
theorems. -/
def wRow : CRow := (1, ([65], [65], [65]))

/-- A concrete `key_table` row used to instantiate the alignment
theorems. -/
def wKey : KRow := (1, (['0'], ['0'], ['0']))

/-! ### Shape of the tokens printed into the key string -/

theorem natDigitsAux_mem : ∀ (fuel n : Nat), ∀ c ∈ natDigitsAux fuel n,
    ∃ d, d < 10 ∧ c = Nat.digitChar d
  | 0, _ => by simp [natDigitsAux]
  | fuel + 1, n => by
      intro c hc
      unfold natDigitsAux at hc
      by_cases h : n < 10
      · simp [h] at hc
        exact ⟨n, h, hc⟩
      · simp [h] at hc
        rcases hc with hc | hc
        · exact natDigitsAux_mem fuel (n / 10) c hc
        · exact ⟨n % 10, Nat.mod_lt _ (by omega), hc⟩

theorem digitChar_not_ws : ∀ d, d < 10 → (Nat.digitChar d).isWhitespace = false := by
  decide

theorem digitChar_ne_dash : ∀ d, d < 10 → Nat.digitChar d ≠ '-' := by
  decide

theorem digitVal_digitChar : ∀ d, d < 10 → digitVal (Nat.digitChar d) = some d := by
  decide

theorem natDigitsAux_ne_nil (fuel n : Nat) (h : 0 < fuel) : natDigitsAux fuel n ≠ [] := by
  cases fuel with
  | zero => omega
  | succ f =>
      unfold natDigitsAux
      by_cases h10 : n < 10 <;> simp [h10]

theorem natChars_ne_nil (n : Nat) : natChars n ≠ [] :=
  natDigitsAux_ne_nil (n + 1) n (Nat.succ_pos n)

theorem intChars_ne_nil (k : Int) : intChars k ≠ [] := by
  unfold intChars
  by_cases h : k < 0
  · simp [h]
  · simp [h, natChars_ne_nil]

theorem intChars_not_ws (k : Int) : ∀ c ∈ intChars k, c.isWhitespace = false := by
  intro c hc
  unfold intChars at hc
  by_cases h : k < 0
  · simp [h, natChars] at hc
    rcases hc with hc | hc
    · subst hc; decide
    · rcases natDigitsAux_mem _ _ c hc with ⟨d, hd, rfl⟩
      exact digitChar_not_ws d hd
  · simp [h, natChars] at hc
    rcases natDigitsAux_mem _ _ c hc with ⟨d, hd, rfl⟩
    exact digitChar_not_ws d hd

/-! ### `split` is a left inverse of `" ".join` on whitespace-free tokens -/

theorem pyWordsAux_nonws_append (t rest acc : List Char)
    (ht : ∀ c ∈ t, c.isWhitespace = false) :
    pyWordsAux (t ++ rest) acc = pyWordsAux rest (t.reverse ++ acc) := by
  induction t generalizing acc with
  | nil => simp
  | cons c cs ih =>
      have hc : c.isWhitespace = false := ht c (by simp)
      simp only [List.cons_append, pyWordsAux, hc, Bool.false_eq_true, if_false,
        List.append_eq]
      rw [ih _ (fun x hx => ht x (by simp [hx]))]
      simp

theorem pyWords_sepJoin : ∀ (toks : List (List Char)),
    (∀ t ∈ toks, t ≠ [] ∧ ∀ c ∈ t, c.isWhitespace = false) →
    pyWords (sepJoin toks) = toks
  | [], _ => rfl
  | [t], h => by
      have ht := h t (by simp)
      have h1 := pyWordsAux_nonws_append t [] [] ht.2
      simp only [List.append_nil] at h1
      show pyWordsAux t [] = [t]
      rw [h1]
      simp [pyWordsAux, ht.1]
  | t :: t' :: ts, h => by
      have ht := h t (by simp)
      have h1 := pyWordsAux_nonws_append t (' ' :: sepJoin (t' :: ts)) [] ht.2
      simp only [List.append_nil] at h1
      show pyWordsAux (t ++ ' ' :: sepJoin (t' :: ts)) [] = t :: t' :: ts
      rw [h1]
      have hsp : (' ').isWhitespace = true := by decide
      have hrev : t.reverse ≠ [] := by simp [ht.1]
      simp [pyWordsAux, hsp, hrev]
      exact pyWords_sepJoin (t' :: ts) (fun x hx => h x (List.mem_cons_of_mem _ hx))

theorem pyWords_keyOf (shifts : List Int) : pyWords (keyOf shifts) = shifts.map intChars := by
  apply pyWords_sepJoin
  intro t ht
  rcases List.mem_map.1 ht with ⟨k, _, rfl⟩
  exact ⟨intChars_ne_nil k, intChars_not_ws k⟩

/-! ### Parsing is a left inverse of printing for the shift integers -/

theorem parseNatAux_append (xs ys : List Char) (acc : Nat) :
    parseNatAux (xs ++ ys) acc = (parseNatAux xs acc).bind (fun a => parseNatAux ys a) := by
  induction xs generalizing acc with
  | nil => rfl
  | cons c cs ih =>
      simp only [List.cons_append, parseNatAux]
      cases hdv : digitVal c with
      | none => simp
      | some d => simp [ih]

theorem parseNatAux_natDigitsAux : ∀ (fuel n acc : Nat), n < fuel →
    parseNatAux (natDigitsAux fuel n) acc
      = some (acc * 10 ^ (natDigitsAux fuel n).length + n)
  | 0, _, _, h => absurd h (by omega)
  | fuel + 1, n, acc, h => by
      by_cases h10 : n < 10
      · simp [natDigitsAux, h10, parseNatAux, digitVal_digitChar n h10]
      · have hfuel : n / 10 < fuel := by omega
        simp only [natDigitsAux, if_neg h10]
        rw [parseNatAux_append, parseNatAux_natDigitsAux fuel (n / 10) acc hfuel]
        have hm := digitVal_digitChar (n % 10) (by omega)
        simp only [Option.some_bind, parseNatAux, hm, List.length_append,
          List.length_singleton]
        have hdm := Nat.div_add_mod n 10
        congr 1
        calc (acc * 10 ^ (natDigitsAux fuel (n / 10)).length + n / 10) * 10 + n % 10
            = acc * (10 ^ (natDigitsAux fuel (n / 10)).length * 10)
              + (10 * (n / 10) + n % 10) := by ring
          _ = acc * 10 ^ ((natDigitsAux fuel (n / 10)).length + 1) + n := by
              rw [pow_succ, hdm]

theorem parseNatChars_natChars (n : Nat) : parseNatChars (natChars n) = some n := by
  unfold parseNatChars
  rw [if_neg (natChars_ne_nil n)]
  unfold natChars
  rw [parseNatAux_natDigitsAux (n + 1) n 0 (Nat.lt_succ_self n)]
  simp

theorem natChars_head_digit (n : Nat) :
    ∃ d rest, d < 10 ∧ natChars n = Nat.digitChar d :: rest := by
  rcases hne : natChars n with _ | ⟨c, cs⟩
  · exact absurd hne (natChars_ne_nil n)
  · have hc : c ∈ natChars n := by rw [hne]; simp
    rcases natDigitsAux_mem _ _ c hc with ⟨d, hd, rfl⟩
    exact ⟨d, cs, hd, rfl⟩

theorem neg_natAbs_of_neg (k : Int) (h : k < 0) : -((k.natAbs : Nat) : Int) = k := by
  rw [Int.ofNat_natAbs_of_nonpos (by omega), neg_neg]

theorem parseIntChars_intChars (k : Int) : parseIntChars (intChars k) = some k := by
  by_cases h : k < 0
  · have he : intChars k = '-' :: natChars k.natAbs := by simp [intChars, h]
    rw [he]
    simp [parseIntChars, parseNatChars_natChars, neg_natAbs_of_neg k h]
    rw [abs_of_neg h, neg_neg]
  · have he : intChars k = natChars k.toNat := by simp [intChars, h]
    rcases natChars_head_digit k.toNat with ⟨d, rest, hd, heq⟩
    rw [he, heq]
    simp [parseIntChars, if_neg (digitChar_ne_dash d hd), ← heq,
      parseNatChars_natChars, Int.toNat_of_nonneg (show (0:Int) ≤ k by omega)]

/-! ### Structure of the `Encrypt` relation -/

theorem encrypt_nil_iff (ts cs : List Nat) : Encrypt ts cs [] ↔ ts = [] ∧ cs = [] := by
  cases ts <;> cases cs <;> simp [Encrypt, encryptOk]

theorem encrypt_cons (ts cs : List Nat) (sv : Int) (ss : List Int)
    (h : Encrypt ts cs (sv :: ss)) :
    ∃ tv ts' cv cs', ts = tv :: ts' ∧ cs = cv :: cs' ∧ GenChar tv cv sv ∧ Encrypt ts' cs' ss := by
  cases ts with
  | nil => cases cs <;> simp [Encrypt, encryptOk] at h
  | cons tv ts' =>
      cases cs with
      | nil => simp [Encrypt, encryptOk] at h
      | cons cv cs' =>
          simp only [Encrypt, encryptOk, Bool.and_eq_true, decide_eq_true_eq] at h
          exact ⟨tv, ts', cv, cs', rfl, rfl, h.1, h.2⟩

theorem encrypt_lengths : ∀ (ss : List Int) (ts cs : List Nat), Encrypt ts cs ss →
    cs.length = ts.length ∧ ss.length = ts.length
  | [], ts, cs, h => by
      rcases (encrypt_nil_iff ts cs).1 h with ⟨rfl, rfl⟩
      simp
  | sv :: ss, ts, cs, h => by
      rcases encrypt_cons ts cs sv ss h with ⟨tv, ts', cv, cs', rfl, rfl, _, h2⟩
      have ih := encrypt_lengths ss ts' cs' h2
      simp [ih.1, ih.2]

/-! ### Behaviour of the decryption loop on an encryption outcome -/

theorem decryptLoop_encrypt :
    ∀ (ss : List Int) (ts cs pre tail : List Nat) (more : List (List Char)),
    Encrypt ts cs ss → (∀ v ∈ ts, v ≤ 127) →
    decryptLoop (pre ++ cs ++ tail) (ss.map intChars ++ more) pre.length
      = (decryptLoop (pre ++ cs ++ tail) more (pre.length + ss.length)).map
          (fun r => ts ++ r)
  | [], ts, cs, pre, tail, more, h, _ => by
      rcases (encrypt_nil_iff ts cs).1 h with ⟨rfl, rfl⟩
      simp
  | sv :: ss, ts, cs, pre, tail, more, h, hascii => by
      rcases encrypt_cons ts cs sv ss h with ⟨tv, ts', cv, cs', rfl, rfl, hg, h2⟩
      obtain ⟨hs1, hs2, hval, h32, h127, h92⟩ := hg
      have harr : pre ++ cv :: cs' ++ tail = (pre ++ [cv]) ++ (cs' ++ tail) := by simp
      have hidx : (pre ++ cv :: cs' ++ tail)[pre.length]? = some cv := by
        rw [show pre ++ cv :: cs' ++ tail = pre ++ (cv :: (cs' ++ tail)) by simp,
          List.getElem?_append_right (le_refl pre.length)]
        simp
      have hv : (cv : Int) - sv = (tv : Int) := by omega
      have htv : tv ≤ 127 := hascii tv (by simp)
      simp only [List.map_cons, List.cons_append, decryptLoop, hidx,
        parseIntChars_intChars, List.append_eq]
      rw [if_pos (by constructor <;> omega)]
      have ih := decryptLoop_encrypt ss ts' cs' (pre ++ [cv]) tail more h2
        (fun v hvmem => hascii v (List.mem_cons_of_mem _ hvmem))
      rw [show (pre ++ [cv]) ++ cs' ++ tail = pre ++ cv :: cs' ++ tail by simp,
        List.length_append, List.length_singleton] at ih
      rw [ih, hv, Int.toNat_natCast, Option.map_map]
      rw [show pre.length + 1 + ss.length = pre.length + (ss.length + 1) by omega]
      rfl

/-! ### Claim theorems for the cipher (`ndv_cypher.py`) -/

/-- C1: for every ASCII string (all codepoints in `[0,127]`) and every
outcome `(cipher, shifts)` of the randomized draws in
`VernamEncrypt.encrypt`, `VernamDecrypt.decrypt` applied to the
ciphertext and the key string returns exactly the original text. -/
theorem round_trip_decrypt_encrypt (text cipher : List Nat) (shifts : List Int)
    (henc : Encrypt text cipher shifts) (hascii : ∀ v ∈ text, v ≤ 127) :
    decrypt cipher (keyOf shifts) = some text := by
  unfold decrypt
  rw [pyWords_keyOf]
  have h := decryptLoop_encrypt shifts text cipher [] [] [] henc hascii
  simpa [decryptLoop] using h

/-- Witness for C1 at the concrete text `"ab"`. -/
theorem round_trip_decrypt_encrypt_witness :
    Encrypt [97, 98] [65, 65] [-32, -33] ∧ (∀ v ∈ [97, 98], v ≤ 127) ∧
      decrypt [65, 65] (keyOf [-32, -33]) = some [97, 98] :=
  ⟨by decide, by decide,
    round_trip_decrypt_encrypt [97, 98] [65, 65] [-32, -33] (by decide) (by decide)⟩

/-- C2: for every input text and every outcome of `encrypt`, the
ciphertext has as many characters as the text, and the key string
splits on whitespace into exactly one integer token per character,
positionally the printed shifts. -/
theorem encrypt_length_alignment (text cipher : List Nat) (shifts : List Int)
    (henc : Encrypt text cipher shifts) :
    cipher.length = text.length ∧
      pyWords (keyOf shifts) = shifts.map intChars ∧
      (pyWords (keyOf shifts)).length = text.length ∧
      ∀ t ∈ pyWords (keyOf shifts), ∃ k : Int, parseIntChars t = some k := by
  have hl := encrypt_lengths shifts text cipher henc
  refine ⟨hl.1, pyWords_keyOf shifts, ?_, ?_⟩
  · rw [pyWords_keyOf]
    simp [hl.2]
  · rw [pyWords_keyOf]
    intro t ht
    rcases List.mem_map.1 ht with ⟨k, _, rfl⟩
    exact ⟨k, parseIntChars_intChars k⟩

/-- Witness for C2 at the concrete text `"ab"`. -/
theorem encrypt_length_alignment_witness :
    Encrypt [97, 98] [65, 65] [-32, -33] ∧
      ([65, 65] : List Nat).length = ([97, 98] : List Nat).length ∧
      (pyWords (keyOf [-32, -33])).length = ([97, 98] : List Nat).length :=
  ⟨by decide,
    (encrypt_length_alignment [97, 98] [65, 65] [-32, -33] (by decide)).1,
    (encrypt_length_alignment [97, 98] [65, 65] [-32, -33] (by decide)).2.2.1⟩

/-- C3: for ASCII input and every outcome of `encrypt`, every
ciphertext codepoint lies in `[32,126]` and is never `92`
(guaranteed by the acceptance test of `_gen_char`). -/
theorem ciphertext_printable : ∀ (ss : List Int) (text cipher : List Nat),
    Encrypt text cipher ss → (∀ v ∈ text, v ≤ 127) →
    ∀ c ∈ cipher, 32 ≤ c ∧ c ≤ 126 ∧ c ≠ 92
  | [], text, cipher, h, _ => by
      rcases (encrypt_nil_iff text cipher).1 h with ⟨rfl, rfl⟩
      simp
  | sv :: ss, text, cipher, h, hascii => by
      rcases encrypt_cons text cipher sv ss h with ⟨tv, ts', cv, cs', rfl, rfl, hg, h2⟩
      intro c hc
      rcases List.mem_cons.1 hc with rfl | hc
      · obtain ⟨_, _, _, h32, h127, h92⟩ := hg
        exact ⟨h32, by omega, h92⟩
      · exact ciphertext_printable ss ts' cs' h2
          (fun v hv => hascii v (List.mem_cons_of_mem _ hv)) c hc

/-- Witness for C3 at the concrete text `"ab"`. -/
theorem ciphertext_printable_witness :
    Encrypt [97, 98] [65, 65] [-32, -33] ∧ (32 ≤ 65 ∧ 65 ≤ 126 ∧ 65 ≠ 92) :=
  ⟨by decide,
    ciphertext_printable [-32, -33] [97, 98] [65, 65] (by decide) (by decide)
      65 (by decide)⟩

/-- C9: for every codepoint in `[0,127]` there is an accepting draw of
the rejection-sampling loop of `_gen_char`: a shift in
`[-codepoint, 127-codepoint]` whose shifted value lies in `[32,126]`
and is not `92`, so the loop can terminate on every valid input. -/
theorem valid_shift_exists (val : Nat) (_h : val ≤ 127) :
    ∃ (newv : Nat) (shift : Int), GenChar val newv shift :=
  ⟨65, 65 - (val : Int), by
    unfold GenChar
    refine ⟨by omega, by omega, by omega, by omega, by omega, by omega⟩⟩

/-- Witness for C9 at codepoint `0`. -/
theorem valid_shift_exists_witness :
    (0 : Nat) ≤ 127 ∧ ∃ (newv : Nat) (shift : Int), GenChar 0 newv shift :=
  ⟨by decide, valid_shift_exists 0 (by decide)⟩

/-- Counterexample to C4: `decrypt` on the two-character ciphertext
`"ab"` (`[97, 98]`) with the one-shift key string `"0"` does not fail:
it silently returns the one-character truncation `[97]`. -/
theorem decrypt_short_key_truncates_cex : decrypt [97, 98] ['0'] = some [97] := by
  decide

/-- C4 as amended: `decrypt` never compares the number of shifts to the
ciphertext length.  With any outcome `(cipher, shifts)` of encrypting
an ASCII `text`: appending extra ciphertext characters still succeeds,
silently truncating the output to one character per shift; only when
the key has more shifts than the ciphertext has characters does
decryption fail (uncaught index error). -/
theorem decrypt_key_count_mismatch (text cipher : List Nat) (shifts : List Int)
    (henc : Encrypt text cipher shifts) (hascii : ∀ v ∈ text, v ≤ 127) :
    (∀ extra : List Nat, decrypt (cipher ++ extra) (keyOf shifts) = some text) ∧
      (∀ (s0 : Int) (srest : List Int),
        decrypt cipher (keyOf (shifts ++ s0 :: srest)) = none) := by
  have hlen := encrypt_lengths shifts text cipher henc
  constructor
  · intro extra
    unfold decrypt
    rw [pyWords_keyOf]
    have h := decryptLoop_encrypt shifts text cipher [] extra [] henc hascii
    simpa [decryptLoop] using h
  · intro s0 srest
    unfold decrypt
    rw [pyWords_keyOf, List.map_append, List.map_cons]
    have h := decryptLoop_encrypt shifts text cipher [] []
      (intChars s0 :: srest.map intChars) henc hascii
    simp only [List.nil_append, List.append_nil, List.length_nil, Nat.zero_add] at h
    rw [h]
    have hnone : cipher[shifts.length]? = none := by
      apply List.getElem?_eq_none
      omega
    simp [decryptLoop, hnone]

/-- Witness for the amended C4 at the concrete text `"a"`. -/
theorem decrypt_key_count_mismatch_witness :
    Encrypt [97] [65] [-32] ∧ decrypt [65, 66] (keyOf [-32]) = some [97] ∧
      decrypt [65] (keyOf [-32, 0]) = none :=
  ⟨by decide,
    (decrypt_key_count_mismatch [97] [65] [-32] (by decide) (by decide)).1 [66],
    (decrypt_key_count_mismatch [97] [65] [-32] (by decide) (by decide)).2 0 []⟩

/-! ### Claim theorems for the storage and record layer -/

theorem check_db_eq_one (db : List CRow) (kb : List KRow)
    (h1 : db ≠ []) (h2 : kb ≠ []) : check_db db kb = 1 := by
  rcases List.exists_cons_of_ne_nil h1 with ⟨a, as, rfl⟩
  rcases List.exists_cons_of_ne_nil h2 with ⟨b, bs, rfl⟩
  rfl

/-- C5: the go-ahead code of `check_db` together with the row-count
comparison of `db_decryption` maps the four input shapes — both empty,
both non-empty aligned, orphan keys, both non-empty misaligned — to
four pairwise distinct states; in particular Mismatch is distinct from
Aligned. -/
theorem db_state_four_shapes (dbA dbM : List CRow) (kbA kbM kbO : List KRow)
    (hA1 : dbA ≠ []) (hA2 : kbA ≠ []) (hA3 : dbA.length = kbA.length)
    (hM1 : dbM ≠ []) (hM2 : kbM ≠ []) (hM3 : dbM.length ≠ kbM.length)
    (hO : kbO ≠ []) :
    dbState [] [] = (2, true) ∧ dbState dbA kbA = (1, true) ∧
      dbState [] kbO = (0, false) ∧ dbState dbM kbM = (1, false) ∧
      dbState [] [] ≠ dbState dbA kbA ∧ dbState [] [] ≠ dbState [] kbO ∧
      dbState [] [] ≠ dbState dbM kbM ∧ dbState dbA kbA ≠ dbState [] kbO ∧
      dbState dbA kbA ≠ dbState dbM kbM ∧ dbState [] kbO ≠ dbState dbM kbM := by
  have e1 : dbState [] [] = (2, true) := rfl
  have e2 : dbState dbA kbA = (1, true) := by
    unfold dbState
    rw [check_db_eq_one dbA kbA hA1 hA2]
    simp [hA3]
  have e3 : dbState [] kbO = (0, false) := by
    rcases List.exists_cons_of_ne_nil hO with ⟨b, bs, rfl⟩
    simp [dbState, check_db]
  have e4 : dbState dbM kbM = (1, false) := by
    unfold dbState
    rw [check_db_eq_one dbM kbM hM1 hM2]
    simp [hM3]
  refine ⟨e1, e2, e3, e4, ?_, ?_, ?_, ?_, ?_, ?_⟩
  · rw [e1, e2]; decide
  · rw [e1, e3]; decide
  · rw [e1, e4]; decide
  · rw [e2, e3]; decide
  · rw [e2, e4]; decide
  · rw [e3, e4]; decide

/-- Witness for C5 at concrete one- and two-row tables. -/
theorem db_state_four_shapes_witness :
    ([wRow] : List CRow) ≠ [] ∧ ([wKey] : List KRow) ≠ [] ∧
      ([wRow] : List CRow).length = ([wKey] : List KRow).length ∧
      ([wRow] : List CRow).length ≠ ([wKey, wKey] : List KRow).length ∧
      (dbState [] [] = (2, true) ∧ dbState [wRow] [wKey] = (1, true) ∧
        dbState [] [wKey] = (0, false) ∧ dbState [wRow] [wKey, wKey] = (1, false) ∧
        dbState [] [] ≠ dbState [wRow] [wKey] ∧ dbState [] [] ≠ dbState [] [wKey] ∧
        dbState [] [] ≠ dbState [wRow] [wKey, wKey] ∧
        dbState [wRow] [wKey] ≠ dbState [] [wKey] ∧
        dbState [wRow] [wKey] ≠ dbState [wRow] [wKey, wKey] ∧
        dbState [] [wKey] ≠ dbState [wRow] [wKey, wKey]) :=
  ⟨by decide, by decide, by decide, by decide,
    db_state_four_shapes [wRow] [wRow] [wKey] [wKey, wKey] [wKey]
      (by decide) (by decide) (by decide) (by decide) (by decide) (by decide) (by decide)⟩

/-- C6: whenever both tables are non-empty with different row counts,
`db_decryption` decodes nothing: it returns an empty record list
together with exactly one error dialog (more data than keys, or more
keys than data) — it never truncates to the shorter table. -/
theorem mismatch_no_decode (ans : Bool) (databox : List CRow) (keybox : List KRow)
    (h1 : databox ≠ []) (h2 : keybox ≠ []) (h3 : databox.length ≠ keybox.length) :
    db_decryption ans databox keybox = some ([], [Evt.errMoreDataThanKeys]) ∨
      db_decryption ans databox keybox = some ([], [Evt.errMoreKeysThanData]) := by
  have hg := check_db_eq_one databox keybox h1 h2
  by_cases hgt : databox.length > keybox.length
  · left
    simp [db_decryption, hg, h3, hgt]
  · right
    simp [db_decryption, hg, h3, hgt]

/-- Witness for C6 at one cipher row against two key rows. -/
theorem mismatch_no_decode_witness :
    ([wRow] : List CRow) ≠ [] ∧ ([wKey, wKey] : List KRow) ≠ [] ∧
      ([wRow] : List CRow).length ≠ ([wKey, wKey] : List KRow).length ∧
      (db_decryption true [wRow] [wKey, wKey] = some ([], [Evt.errMoreDataThanKeys]) ∨
        db_decryption true [wRow] [wKey, wKey] = some ([], [Evt.errMoreKeysThanData])) :=
  ⟨by decide, by decide, by decide,
    mismatch_no_decode true [wRow] [wKey, wKey] (by decide) (by decide) (by decide)⟩

/-- C10: with a non-empty ciphertext table and an empty key table,
`check_db` returns the fall-through code `2` and `db_decryption`
returns the raw ciphertext rows unchanged, with no decryption and no
error dialog. -/
theorem raw_passthrough (ans : Bool) (databox : List CRow) (h : databox ≠ []) :
    db_decryption ans databox [] = some (databox.map RecOut.raw, []) := by
  rcases List.exists_cons_of_ne_nil h with ⟨a, as, rfl⟩
  rfl

/-- Witness for C10 at a one-row ciphertext table. -/
theorem raw_passthrough_witness :
    ([wRow] : List CRow) ≠ [] ∧
      db_decryption true [wRow] [] = some (([wRow] : List CRow).map RecOut.raw, []) :=
  ⟨by decide, raw_passthrough true [wRow] (by decide)⟩

theorem recordEnc_singleton (r : Rec3) (es : List Rec3) (ks : List Key3)
    (h : RecordEncryption [r] es ks) :
    ∃ er kr, es = [er] ∧ ks = [kr] ∧ Encrypt r.1 er.1 kr.1 ∧
      Encrypt r.2.1 er.2.1 kr.2.1 ∧ Encrypt r.2.2 er.2.2 kr.2.2 := by
  cases es with
  | nil => cases ks <;> simp [RecordEncryption, recordEncOk] at h
  | cons er es' =>
      cases ks with
      | nil => simp [RecordEncryption, recordEncOk] at h
      | cons kr ks' =>
          cases es' with
          | cons e2 es'' => simp [RecordEncryption, recordEncOk] at h
          | nil =>
              cases ks' with
              | cons k2 ks'' => simp [RecordEncryption, recordEncOk] at h
              | nil =>
                  simp only [RecordEncryption, recordEncOk, Bool.and_eq_true] at h
                  exact ⟨er, kr, rfl, rfl, h.1.1.1, h.1.1.2, h.1.2⟩

/-- C7 as amended: for the single record
`{1: ("Google", "user@x.com", "Secret1!")}` and every outcome of
`record_encryption`, there is exactly one cipher record and one key
record, the three ciphertext fields have lengths 6, 10 and 8, the
three key strings split into 6, 10 and 8 integer tokens, and decoding
the pair returns exactly the original record. -/
theorem concrete_scenario (es : List Rec3) (ks : List Key3)
    (h : RecordEncryption [googleRec] es ks) :
    ∃ er kr, es = [er] ∧ ks = [kr] ∧
      er.1.length = 6 ∧ er.2.1.length = 10 ∧ er.2.2.length = 8 ∧
      (pyWords (keyOf kr.1)).length = 6 ∧ (pyWords (keyOf kr.2.1)).length = 10 ∧
      (pyWords (keyOf kr.2.2)).length = 8 ∧
      decRowFields (1, er) (1, (keyOf kr.1, keyOf kr.2.1, keyOf kr.2.2))
        = some googleRec := by
  rcases recordEnc_singleton googleRec es ks h with ⟨er, kr, rfl, rfl, h1, h2, h3⟩
  have a1 : ∀ v ∈ googleRec.1, v ≤ 127 := by decide
  have a2 : ∀ v ∈ googleRec.2.1, v ≤ 127 := by decide
  have a3 : ∀ v ∈ googleRec.2.2, v ≤ 127 := by decide
  have l1 := encrypt_length_alignment _ _ _ h1
  have l2 := encrypt_length_alignment _ _ _ h2
  have l3 := encrypt_length_alignment _ _ _ h3
  have d1 := round_trip_decrypt_encrypt _ _ _ h1 a1
  have d2 := round_trip_decrypt_encrypt _ _ _ h2 a2
  have d3 := round_trip_decrypt_encrypt _ _ _ h3 a3
  refine ⟨er, kr, rfl, rfl, ?_, ?_, ?_, ?_, ?_, ?_, ?_⟩
  · rw [l1.1]; decide
  · rw [l2.1]; decide
  · rw [l3.1]; decide
  · rw [l1.2.2.1]; decide
  · rw [l2.2.2.1]; decide
  · rw [l3.2.2.1]; decide
  · simp [decRowFields, d1, d2, d3]

/-- Counterexample to C7 as stated: a concrete outcome of
`record_encryption` on `{1: ("Google", "user@x.com", "Secret1!")}`
whose middle ciphertext field (`"user@x.com"`) has length 10, not the
claimed 11. -/
theorem concrete_scenario_cex :
    RecordEncryption [googleRec] [gEnc] [gKey] ∧ gEnc.2.1.length = 10 ∧ (10 : Nat) ≠ 11 := by
  refine ⟨by decide, by decide, by decide⟩

/-- Witness for the amended C7 at the all-to-`'A'` outcome. -/
theorem concrete_scenario_witness :
    RecordEncryption [googleRec] [gEnc] [gKey] ∧
      (∃ er kr, ([gEnc] : List Rec3) = [er] ∧ ([gKey] : List Key3) = [kr] ∧
        er.1.length = 6 ∧ er.2.1.length = 10 ∧ er.2.2.length = 8 ∧
        (pyWords (keyOf kr.1)).length = 6 ∧ (pyWords (keyOf kr.2.1)).length = 10 ∧
        (pyWords (keyOf kr.2.2)).length = 8 ∧
        decRowFields (1, er) (1, (keyOf kr.1, keyOf kr.2.1, keyOf kr.2.2))
          = some googleRec) :=
  ⟨by decide, concrete_scenario [gEnc] [gKey] (by decide)⟩

/-- C8 (code bug): replaying `add_new_record` after `delete_record` on
the record dict `{1: 10, 2: 20, 3: 30}`: deleting id 1 leaves ids
`{2, 3}`; adding a record then assigns id `len(record_dict) + 1 = 3`,
which is already present, so the existing record 3 is silently
overwritten instead of the record getting the fresh id
`max(existing) + 1 = 4`. -/
theorem add_after_delete_overwrites :
    delete_record [(1, 10), (2, 20), (3, 30)] 1 = [(2, 20), (3, 30)] ∧
      (List.lookup 3 (delete_record [(1, 10), (2, 20), (3, 30)] 1)).isSome = true ∧
      add_new_record (delete_record [(1, 10), (2, 20), (3, 30)] 1) 99
        = [(2, 20), (3, 99)] := by
  decide

end MyNEA
